import Mathlib

/-!
Shallow embedding of the modeling pipeline in `src/rust/src/modeling.rs`:
vocabulary construction (`build_vocabulary`), TF-IDF encoding
(`create_tfidf_matrix`), the NMF multiplicative-update loop (`nmf`),
topic reporting (`print_topics`) and document loading (`load_documents`).

Conventions of the embedding:
* `f32` values are modelled by exact numbers: rationals (`ℚ`) inside the
  NMF loop and the topic reporter, reals (`ℝ`) where the natural
  logarithm of the IDF formula appears.  The special IEEE values that the
  convergence check and the sort comparator can actually meet are kept
  explicit through the small type `RFloat` (finite / +inf / -inf / NaN):
  `fdiv` mirrors IEEE division of a finite numerator by a possibly zero
  denominator and `rfltLt` mirrors the `<` comparison (false on NaN).
* Rust `HashMap` iteration order is unspecified, so `build_vocabulary`
  takes the enumeration order of the document-count map as an explicit
  argument `order` (a duplicate-free list of the distinct corpus tokens).
* The random initialization of `W` and `H` is an external input: `nmf`
  receives the initial matrices as arguments.
* A Rust panic (the `unwrap` in `print_topics`) is modelled by `Option`:
  `none` is the panic.  `sort_unstable_by` is modelled by insertion sort
  with the same comparator; any comparison-based sort compares a NaN
  entry with some other entry whenever the row has at least two entries.
-/

namespace NmfPipeline

/-- Model of the `f32` values reachable in the convergence check and in
`partial_cmp`: a finite rational, the two infinities, or NaN. -/
inductive RFloat where
  | finite (q : ℚ)
  | posInf
  | negInf
  | nan
  deriving DecidableEq

/-- IEEE division of finite `f32` values (the only division the source
performs on possibly-zero denominators): `0/0 = NaN`, `x/0 = ±∞` for
`x ≠ 0`, and an exact quotient otherwise. -/
def fdiv (x y : ℚ) : RFloat :=
  if y = 0 then
    if x = 0 then RFloat.nan
    else if 0 < x then RFloat.posInf
    else RFloat.negInf
  else RFloat.finite (x / y)

/-- IEEE `<` between a possibly special value and a finite bound:
any comparison with NaN is false. -/
def rfltLt (a : RFloat) (b : ℚ) : Bool :=
  match a with
  | RFloat.finite q => decide (q < b)
  | RFloat.posInf => false
  | RFloat.negInf => true
  | RFloat.nan => false

/-- IEEE `>` between a possibly special value and a finite bound:
any comparison with NaN is false. -/
def rfltGt (a : RFloat) (b : ℚ) : Bool :=
  match a with
  | RFloat.finite q => decide (b < q)
  | RFloat.posInf => true
  | RFloat.negInf => false
  | RFloat.nan => false

/-- Whether the value is NaN. -/
def RFloat.isNan : RFloat → Bool
  | RFloat.nan => true
  | _ => false

/-- Total comparison of rationals, as `f32::partial_cmp` behaves on
finite values. -/
def qcmp (a b : ℚ) : Ordering :=
  if a < b then Ordering.lt else if b < a then Ordering.gt else Ordering.eq

/-- `f32::partial_cmp`: `none` exactly when one side is NaN. -/
def rcmp : RFloat → RFloat → Option Ordering
  | RFloat.nan, _ => none
  | _, RFloat.nan => none
  | RFloat.negInf, RFloat.negInf => some Ordering.eq
  | RFloat.negInf, _ => some Ordering.lt
  | RFloat.posInf, RFloat.posInf => some Ordering.eq
  | _, RFloat.posInf => some Ordering.lt
  | RFloat.posInf, _ => some Ordering.gt
  | RFloat.finite _, RFloat.negInf => some Ordering.gt
  | RFloat.finite a, RFloat.finite b => some (qcmp a b)

/-! ## Vocabulary builder (`build_vocabulary`, modeling.rs lines 32-51) -/

/-- Document frequency of a token: the number of documents that contain
it at least once.  The source increments a per-token counter once per
document (it first deduplicates each document's tokens into a set), which
is the same count. -/
def docFreq (documents : List (List String)) (t : String) : Nat :=
  (documents.filter (fun doc => t ∈ doc)).length

/-- The `next_idx` loop of `build_vocabulary`: assign consecutive indices,
starting at `s`, to the tokens of `l` in order. -/
def assignIdx : List String → Nat → List (String × Nat)
  | [], _ => []
  | t :: ts, s => (t, s) :: assignIdx ts (s + 1)

/-- `build_vocabulary`: keep the tokens whose document frequency is at
least `minDf`, in the enumeration order `order` of the underlying
document-count map, and give them consecutive indices from 0. -/
def build_vocabulary (documents : List (List String)) (minDf : Nat)
    (order : List String) : List (String × Nat) :=
  assignIdx (order.filter (fun t => decide (minDf ≤ docFreq documents t))) 0

/-- The filter predicate of `build_vocabulary`: `count >= min_df`. -/
def dfOk (documents : List (List String)) (minDf : Nat) (t : String) : Bool :=
  decide (minDf ≤ docFreq documents t)

/-- `HashMap::get`: the index of a token in the vocabulary, if present. -/
def vocabLookup (vocab : List (String × Nat)) (t : String) : Option Nat :=
  (vocab.find? (fun p => p.1 == t)).map Prod.snd

/-- `HashMap::contains_key`. -/
def vocabContains (vocab : List (String × Nat)) (t : String) : Bool :=
  (vocabLookup vocab t).isSome

/-! ## TF-IDF encoder (`create_tfidf_matrix`, modeling.rs lines 53-93) -/

/-- Number of occurrences of token `t` in a document. -/
def termCount (doc : List String) (t : String) : Nat :=
  (doc.filter (fun s => s == t)).length

/-- Number of occurrences, in a document, of tokens carrying vocabulary
index `i` (`tf[[doc_idx, token_idx]]` receives one increment per such
occurrence). -/
def tokensAtIndex (vocab : List (String × Nat)) (doc : List String) (i : Nat) : Nat :=
  (doc.filter (fun s => vocabLookup vocab s == some i)).length

/-- The `valid_tokens` counter: occurrences of vocabulary members in the
document. -/
def validTokenCount (vocab : List (String × Nat)) (doc : List String) : Nat :=
  (doc.filter (fun s => vocabContains vocab s)).length

/-- One entry of the term-frequency matrix.  The `continue` of the source
on `valid_tokens == 0` leaves the row at its zero initialization, so no
division happens in that case. -/
noncomputable def tfEntry (vocab : List (String × Nat)) (doc : List String)
    (i : Nat) : ℝ :=
  if validTokenCount vocab doc = 0 then 0
  else (tokensAtIndex vocab doc i : ℝ) / (validTokenCount vocab doc : ℝ)

/-- The smoothed inverse document frequency of a token:
`1 + ln((N + 1) / (df + 1))`. -/
noncomputable def idf (documents : List (List String)) (t : String) : ℝ :=
  1 + Real.log (((documents.length : ℝ) + 1) / ((docFreq documents t : ℝ) + 1))

/-- The IDF array entry at index `i`: the source writes
`idf[token_idx] = ...` once for the vocabulary pair carrying that index;
indices not carried by any pair keep the zero initialization. -/
noncomputable def idfAt (documents : List (List String))
    (vocab : List (String × Nat)) (i : Nat) : ℝ :=
  match vocab.find? (fun p => p.2 == i) with
  | some p => idf documents p.1
  | none => 0

/-- One entry of the TF-IDF matrix `V`: `row *= &idf` followed by the
defensive clip `x.max(0.0)`. -/
noncomputable def create_tfidf_matrix (documents : List (List String))
    (vocab : List (String × Nat)) (d i : Nat) : ℝ :=
  max (tfEntry vocab (documents.getD d []) i * idfAt documents vocab i) 0

/-! ## NMF optimizer (`nmf`, modeling.rs lines 95-149) -/

/-- The fixed regularization constant `lambda = 0.01` of the source. -/
def lambda : ℚ := 1 / 100

/-- The fixed numerical floor `eps = 1e-10` of the source. -/
def eps : ℚ := 1 / 10000000000

/-- `H ← H ⊙ (Wᵗ·V) / (Wᵗ·W·H + λ + ε)` (elementwise product and
quotient, the constants added to every entry of the denominator). -/
def updateH {d k n : Nat} (v : Matrix (Fin d) (Fin n) ℚ)
    (w : Matrix (Fin d) (Fin k) ℚ) (h : Matrix (Fin k) (Fin n) ℚ) :
    Matrix (Fin k) (Fin n) ℚ :=
  fun i j => h i j * ((w.transpose * v) i j / ((w.transpose * (w * h)) i j + lambda + eps))

/-- `W ← W ⊙ (V·Hᵗ) / (W·H·Hᵗ + λ + ε)`. -/
def updateW {d k n : Nat} (v : Matrix (Fin d) (Fin n) ℚ)
    (w : Matrix (Fin d) (Fin k) ℚ) (h : Matrix (Fin k) (Fin n) ℚ) :
    Matrix (Fin d) (Fin k) ℚ :=
  fun i j => w i j * ((v * h.transpose) i j / ((w * h * h.transpose) i j + lambda + eps))

/-- Squared Frobenius norm of `V - W·H`. -/
def frobErr {d k n : Nat} (v : Matrix (Fin d) (Fin n) ℚ)
    (w : Matrix (Fin d) (Fin k) ℚ) (h : Matrix (Fin k) (Fin n) ℚ) : ℚ :=
  ∑ i : Fin d, ∑ j : Fin n, (v i j - (w * h) i j) ^ 2

/-- The mutable local state of the `nmf` loop. -/
structure NmfState (d k n : Nat) where
  w : Matrix (Fin d) (Fin k) ℚ
  h : Matrix (Fin k) (Fin n) ℚ
  errorAtInit : ℚ
  prevError : ℚ

/-- The `for iter in 0..max_iter` loop of `nmf`.  `iter` is the current
iteration index, the second argument the number of iterations still
allowed.  Returns the final state together with the number of iterations
actually executed.  Each iteration: update `H` from the pre-update `W`,
update `W` from the just-updated `H`, compute the reconstruction error,
record it as `error_at_init` and `prev_error` on iteration 0, form
`(prev_error - error) / error_at_init` with IEEE division, set
`prev_error = error`, and break when the quotient compares below `tol`
and `iter > 0`. -/
def nmfGo {d k n : Nat} (v : Matrix (Fin d) (Fin n) ℚ) (tol : ℚ) :
    Nat → Nat → NmfState d k n → NmfState d k n × Nat
  | _, 0, s => (s, 0)
  | iter, r + 1, s =>
    let h2 := updateH v s.w s.h
    let w2 := updateW v s.w h2
    let e := frobErr v w2 h2
    let eai := if iter = 0 then e else s.errorAtInit
    let pe := if iter = 0 then e else s.prevError
    let ediff := fdiv (pe - e) eai
    let s2 : NmfState d k n := ⟨w2, h2, eai, e⟩
    if rfltLt ediff tol = true ∧ 0 < iter then (s2, 1)
    else
      let rest := nmfGo v tol (iter + 1) r s2
      (rest.1, rest.2 + 1)

/-- `nmf`: run the loop from the supplied initial factors (the source
draws them uniformly from `[0.1, 1.0)`; they enter here as arguments),
with `error_at_init` and `prev_error` initialized to `0 as f32`. -/
def nmf {d k n : Nat} (v : Matrix (Fin d) (Fin n) ℚ)
    (w0 : Matrix (Fin d) (Fin k) ℚ) (h0 : Matrix (Fin k) (Fin n) ℚ)
    (maxIter : Nat) (tol : ℚ) : NmfState d k n × Nat :=
  nmfGo v tol 0 maxIter ⟨w0, h0, 0, 0⟩

/-- One iteration of the factor updates, as a step function on the pair
`(W, H)`: `H` first, from the pre-update `W`; then `W`, from the
just-updated `H`. -/
def nmfStep {d k n : Nat} (v : Matrix (Fin d) (Fin n) ℚ) :
    Matrix (Fin d) (Fin k) ℚ × Matrix (Fin k) (Fin n) ℚ →
    Matrix (Fin d) (Fin k) ℚ × Matrix (Fin k) (Fin n) ℚ :=
  fun p =>
    let h2 := updateH v p.1 p.2
    (updateW v p.1 h2, h2)

/-- The pair `(W, H)` after `m` iterations of the update step. -/
def whSeq {d k n : Nat} (v : Matrix (Fin d) (Fin n) ℚ)
    (w0 : Matrix (Fin d) (Fin k) ℚ) (h0 : Matrix (Fin k) (Fin n) ℚ)
    (m : Nat) : Matrix (Fin d) (Fin k) ℚ × Matrix (Fin k) (Fin n) ℚ :=
  (nmfStep v)^[m] (w0, h0)

/-- The reconstruction error computed inside iteration `i` (after that
iteration's updates). -/
def errSeq {d k n : Nat} (v : Matrix (Fin d) (Fin n) ℚ)
    (w0 : Matrix (Fin d) (Fin k) ℚ) (h0 : Matrix (Fin k) (Fin n) ℚ)
    (i : Nat) : ℚ :=
  frobErr v (whSeq v w0 h0 (i + 1)).1 (whSeq v w0 h0 (i + 1)).2

/-- The break condition evaluated at the end of iteration `i`:
`(prev_error - error) / error_at_init < tol && iter > 0` with IEEE
division and comparison. -/
def stopCond {d k n : Nat} (v : Matrix (Fin d) (Fin n) ℚ)
    (w0 : Matrix (Fin d) (Fin k) ℚ) (h0 : Matrix (Fin k) (Fin n) ℚ)
    (tol : ℚ) (i : Nat) : Prop :=
  rfltLt (fdiv (errSeq v w0 h0 (i - 1) - errSeq v w0 h0 i) (errSeq v w0 h0 0)) tol = true
    ∧ 0 < i

/-! ## Topic reporter (`print_topics`, modeling.rs lines 152-176) -/

/-- The `feature_names` array: `vec![""; vocab.len()]` with
`feature_names[idx] = word` for every vocabulary pair. -/
def featureNames (vocab : List (String × Nat)) : List String :=
  (List.range vocab.length).map (fun i =>
    match vocab.find? (fun p => p.2 == i) with
    | some p => p.1
    | none => "")

/-- The sort comparator `|a, b| b.1.partial_cmp(&a.1)` (the weight is the
second component of the pair here): `none` is the `unwrap` panic. -/
def pcmp (a b : String × RFloat) : Option Ordering :=
  rcmp b.2 a.2

/-- Insert an element into an already sorted list, going through the
partial comparator; `none` as soon as a comparison panics. -/
def insertD (x : String × RFloat) : List (String × RFloat) →
    Option (List (String × RFloat))
  | [] => some [x]
  | y :: ys =>
    match pcmp x y with
    | none => none
    | some Ordering.lt => some (x :: y :: ys)
    | some _ => (insertD x ys).map (fun l => y :: l)

/-- `sort_unstable_by` with the panicking comparator, modelled as
insertion sort: every element of a list of length at least two is
compared with some other element, which is all the claims need. -/
def isortD : List (String × RFloat) → Option (List (String × RFloat))
  | [] => some []
  | x :: xs =>
    match isortD xs with
    | none => none
    | some l => insertD x l

/-- Keep the top ten pairs, drop the ones whose weight does not compare
above `0.001`, and take their terms. -/
def selectTermsRF (sorted : List (String × RFloat)) : List String :=
  ((sorted.take 10).filter (fun p => rfltGt p.2 (1 / 1000))).map Prod.fst

/-- Build one topic label: start from `"Topic i: "`, push `"word "` for
every kept term, then trim trailing whitespace. -/
def renderTopic (i : Nat) (terms : List String) : String :=
  (terms.foldl (fun acc wrd => acc ++ wrd ++ " ") ("Topic " ++ toString i ++ ": ")).trimRight

/-- The row loop of `print_topics`, carrying the enumeration index. -/
def printGo (vocab : List (String × Nat)) :
    Nat → List (List RFloat) → Option (List String)
  | _, [] => some []
  | i, row :: rows =>
    match isortD ((featureNames vocab).zip row) with
    | none => none
    | some sorted =>
      match printGo vocab (i + 1) rows with
      | none => none
      | some rest => some (renderTopic i (selectTermsRF sorted) :: rest)

/-- `print_topics`: one label per row of `H`; `none` is the panic of the
`unwrap` inside the sort comparator. -/
def print_topics (h : List (List RFloat)) (vocab : List (String × Nat)) :
    Option (List String) :=
  printGo vocab 0 h

/-- Pure insertion step on rational weights (what the comparator computes
when no NaN is present). -/
def insertDP (x : String × ℚ) : List (String × ℚ) → List (String × ℚ)
  | [] => [x]
  | y :: ys =>
    match qcmp y.2 x.2 with
    | Ordering.lt => x :: y :: ys
    | _ => y :: insertDP x ys

/-- Pure insertion sort on rational weights, descending. -/
def isortDP : List (String × ℚ) → List (String × ℚ)
  | [] => []
  | x :: xs => insertDP x (isortDP xs)

/-- Top ten, threshold `0.001`, terms only — on rational weights. -/
def selectTerms (sorted : List (String × ℚ)) : List String :=
  ((sorted.take 10).filter (fun p => decide ((1 : ℚ) / 1000 < p.2))).map Prod.fst

/-- The whole reporter on rational (NaN-free) weights. -/
def topicsPure (vocab : List (String × Nat)) : Nat → List (List ℚ) → List String
  | _, [] => []
  | i, row :: rows =>
    renderTopic i (selectTerms (isortDP ((featureNames vocab).zip row)))
      :: topicsPure vocab (i + 1) rows

/-- Lift a rational pair to a finite float pair. -/
def liftP (p : String × ℚ) : String × RFloat :=
  (p.1, RFloat.finite p.2)

/-! ## Document loading (`load_documents`, modeling.rs lines 19-30) -/

/-- `load_documents`: each CSV row arrives as the record-level
deserialization result supplied by the CSV reader, and the `tokens`
field of a record is then parsed by the external JSON parser `p`; both
failures propagate immediately through `?`. -/
def load_documents : List (Except String (Nat × String)) →
    (String → Except String (List String)) → Except String (List (List String))
  | [], _ => Except.ok []
  | r :: rs, p =>
    match r with
    | Except.error e => Except.error e
    | Except.ok rec =>
      match p rec.2 with
      | Except.error e => Except.error e
      | Except.ok toks =>
        match load_documents rs p with
        | Except.error e => Except.error e
        | Except.ok rest => Except.ok (toks :: rest)

/-! ## Concrete instances used by witnesses and counterexamples -/

/-- A 1 by 1 document-term matrix with the single entry 1. -/
def vOne : Matrix (Fin 1) (Fin 1) ℚ := fun _ _ => 1

/-- A 1 by 1 initial factor with the single entry 1/2 (inside the
`[0.1, 1.0)` initialization range of the source). -/
def wHalf : Matrix (Fin 1) (Fin 1) ℚ := fun _ _ => 1 / 2

/-- A 1 by 1 initial factor with the single entry 1/2. -/
def hHalf : Matrix (Fin 1) (Fin 1) ℚ := fun _ _ => 1 / 2

/-- The zero-width document-term matrix of one document over an empty
vocabulary. -/
def vWide : Matrix (Fin 1) (Fin 0) ℚ := fun _ j => j.elim0

/-- The zero-width topic-term factor matching `vWide`. -/
def hWide : Matrix (Fin 1) (Fin 0) ℚ := fun _ j => j.elim0

/-- The document-topic factor for a `k = 0` run on one document. -/
def wK0 : Matrix (Fin 1) (Fin 0) ℚ := fun _ j => j.elim0

/-- The topic-term factor for a `k = 0` run over a one-token
vocabulary. -/
def hK0 : Matrix (Fin 0) (Fin 1) ℚ := fun j _ => j.elim0

/-! ## Loop characterization lemmas -/

lemma whSeq_succ {d k n : Nat} (v : Matrix (Fin d) (Fin n) ℚ)
    (w0 : Matrix (Fin d) (Fin k) ℚ) (h0 : Matrix (Fin k) (Fin n) ℚ) (m : Nat) :
    whSeq v w0 h0 (m + 1) = nmfStep v (whSeq v w0 h0 m) :=
  Function.iterate_succ_apply' (nmfStep v) m (w0, h0)

lemma stopCond_iff {d k n : Nat} (v : Matrix (Fin d) (Fin n) ℚ)
    (w0 : Matrix (Fin d) (Fin k) ℚ) (h0 : Matrix (Fin k) (Fin n) ℚ)
    (tol : ℚ) (i : Nat) :
    stopCond v w0 h0 tol i ↔
      (rfltLt (fdiv (errSeq v w0 h0 (i - 1) - errSeq v w0 h0 i) (errSeq v w0 h0 0)) tol = true
        ∧ 0 < i) :=
  Iff.rfl

/-- Full characterization of the loop body `nmfGo` once the first
iteration has happened: the trajectory is the iterate sequence of
`nmfStep`, the iteration count is bounded by the remaining budget, no
iteration strictly before the last one satisfied the break condition,
and an early exit means the last executed iteration satisfied it. -/
lemma nmfGo_spec {d k n : Nat} (v : Matrix (Fin d) (Fin n) ℚ)
    (w0 : Matrix (Fin d) (Fin k) ℚ) (h0 : Matrix (Fin k) (Fin n) ℚ) (tol : ℚ) :
    ∀ (r m : Nat) (s : NmfState d k n), 1 ≤ m →
      s.w = (whSeq v w0 h0 m).1 → s.h = (whSeq v w0 h0 m).2 →
      s.errorAtInit = errSeq v w0 h0 0 → s.prevError = errSeq v w0 h0 (m - 1) →
      (nmfGo v tol m r s).2 ≤ r ∧
      (1 ≤ r → 1 ≤ (nmfGo v tol m r s).2) ∧
      (nmfGo v tol m r s).1.w = (whSeq v w0 h0 (m + (nmfGo v tol m r s).2)).1 ∧
      (nmfGo v tol m r s).1.h = (whSeq v w0 h0 (m + (nmfGo v tol m r s).2)).2 ∧
      (nmfGo v tol m r s).1.errorAtInit = errSeq v w0 h0 0 ∧
      (nmfGo v tol m r s).1.prevError = errSeq v w0 h0 (m + (nmfGo v tol m r s).2 - 1) ∧
      (∀ j, j + 1 < (nmfGo v tol m r s).2 → ¬ stopCond v w0 h0 tol (m + j)) ∧
      ((nmfGo v tol m r s).2 < r → stopCond v w0 h0 tol (m + (nmfGo v tol m r s).2 - 1)) := by
  intro r
  induction r with
  | zero =>
    intro m s hm hw hh hei hpe
    simp only [nmfGo]
    exact ⟨Nat.le_refl 0, fun h => absurd h (by omega),
      by simpa using hw, by simpa using hh, by simpa using hei, by simpa using hpe,
      fun j hj => absurd hj (by omega), fun h => absurd h (by omega)⟩
  | succ r ih =>
    intro m s hm hw hh hei hpe
    have hm0 : ¬ m = 0 := by omega
    have hh2 : updateH v s.w s.h = (whSeq v w0 h0 (m + 1)).2 := by
      rw [hw, hh, whSeq_succ]; rfl
    have hw2 : updateW v s.w (updateH v s.w s.h) = (whSeq v w0 h0 (m + 1)).1 := by
      rw [hw, hh, whSeq_succ]; rfl
    have hw2b : updateW v s.w (whSeq v w0 h0 (m + 1)).2 = (whSeq v w0 h0 (m + 1)).1 := by
      rw [← hh2]; exact hw2
    have heb : frobErr v (whSeq v w0 h0 (m + 1)).1 (whSeq v w0 h0 (m + 1)).2
        = errSeq v w0 h0 m := rfl
    have hunfold : nmfGo v tol m (r + 1) s =
        if rfltLt (fdiv (errSeq v w0 h0 (m - 1) - errSeq v w0 h0 m) (errSeq v w0 h0 0)) tol = true
            ∧ 0 < m then
          (⟨(whSeq v w0 h0 (m + 1)).1, (whSeq v w0 h0 (m + 1)).2,
            errSeq v w0 h0 0, errSeq v w0 h0 m⟩, 1)
        else
          ((nmfGo v tol (m + 1) r
              ⟨(whSeq v w0 h0 (m + 1)).1, (whSeq v w0 h0 (m + 1)).2,
               errSeq v w0 h0 0, errSeq v w0 h0 m⟩).1,
           (nmfGo v tol (m + 1) r
              ⟨(whSeq v w0 h0 (m + 1)).1, (whSeq v w0 h0 (m + 1)).2,
               errSeq v w0 h0 0, errSeq v w0 h0 m⟩).2 + 1) := by
      simp only [nmfGo, hh2, hw2b, heb, if_neg hm0, hei, hpe]
    by_cases hc : stopCond v w0 h0 tol m
    · rw [hunfold, if_pos ((stopCond_iff v w0 h0 tol m).mp hc)]
      refine ⟨by omega, by omega, rfl, rfl, rfl, ?_, ?_, ?_⟩
      · simp
      · intro j hj; omega
      · intro _; simpa using hc
    · rw [hunfold, if_neg (fun hx => hc ((stopCond_iff v w0 h0 tol m).mpr hx))]
      have := ih (m + 1)
        ⟨(whSeq v w0 h0 (m + 1)).1, (whSeq v w0 h0 (m + 1)).2,
         errSeq v w0 h0 0, errSeq v w0 h0 m⟩
        (by omega) rfl rfl rfl (by simp)
      obtain ⟨ha, hb, hcw, hch, hcei, hcpe, hnost, hstop⟩ := this
      refine ⟨by omega, by omega, ?_, ?_, hcei, ?_, ?_, ?_⟩
      · simpa [Nat.add_assoc, Nat.add_comm 1] using hcw
      · simpa [Nat.add_assoc, Nat.add_comm 1] using hch
      · rw [hcpe]; congr 1; omega
      · intro j hj
        match j with
        | 0 => simpa using hc
        | j' + 1 =>
          have := hnost j' (by omega)
          simpa [Nat.add_assoc, Nat.add_comm 1] using this
      · intro hlt
        have := hstop (by omega)
        simpa [Nat.add_assoc, Nat.add_comm 1] using this

/-- Characterization of `nmf`: the returned factors are the `cnt`-fold
iterate of the update step, `cnt` never exceeds `max_iter`, the break
never fires on iteration 0, no iteration strictly before the last
executed one satisfied the break condition, and an early exit means the
last executed iteration satisfied it. -/
lemma nmf_spec {d k n : Nat} (v : Matrix (Fin d) (Fin n) ℚ)
    (w0 : Matrix (Fin d) (Fin k) ℚ) (h0 : Matrix (Fin k) (Fin n) ℚ)
    (maxIter : Nat) (tol : ℚ) :
    (nmf v w0 h0 maxIter tol).2 ≤ maxIter ∧
    (1 ≤ maxIter → 1 ≤ (nmf v w0 h0 maxIter tol).2) ∧
    (nmf v w0 h0 maxIter tol).1.w = (whSeq v w0 h0 (nmf v w0 h0 maxIter tol).2).1 ∧
    (nmf v w0 h0 maxIter tol).1.h = (whSeq v w0 h0 (nmf v w0 h0 maxIter tol).2).2 ∧
    (1 ≤ (nmf v w0 h0 maxIter tol).2 →
      (nmf v w0 h0 maxIter tol).1.errorAtInit = errSeq v w0 h0 0) ∧
    (1 ≤ (nmf v w0 h0 maxIter tol).2 →
      (nmf v w0 h0 maxIter tol).1.prevError
        = errSeq v w0 h0 ((nmf v w0 h0 maxIter tol).2 - 1)) ∧
    (∀ j, j + 1 < (nmf v w0 h0 maxIter tol).2 → ¬ stopCond v w0 h0 tol j) ∧
    ((nmf v w0 h0 maxIter tol).2 < maxIter →
      stopCond v w0 h0 tol ((nmf v w0 h0 maxIter tol).2 - 1)) ∧
    (2 ≤ maxIter → 2 ≤ (nmf v w0 h0 maxIter tol).2) := by
  cases maxIter with
  | zero =>
    simp only [nmf, nmfGo]
    exact ⟨Nat.le_refl 0, fun h => absurd h (by omega), rfl, rfl,
      fun h => absurd h (by omega), fun h => absurd h (by omega),
      fun j hj => absurd hj (by omega), fun h => absurd h (by omega),
      fun h => absurd h (by omega)⟩
  | succ r =>
    have h20 : updateH v w0 h0 = (whSeq v w0 h0 1).2 := by
      rw [whSeq_succ]; rfl
    have hw20 : updateW v w0 (whSeq v w0 h0 1).2 = (whSeq v w0 h0 1).1 := by
      rw [← h20, whSeq_succ]; rfl
    have heb0 : frobErr v (whSeq v w0 h0 1).1 (whSeq v w0 h0 1).2 = errSeq v w0 h0 0 := rfl
    have hcond : ¬ (rfltLt (fdiv (errSeq v w0 h0 0 - errSeq v w0 h0 0) (errSeq v w0 h0 0)) tol
        = true ∧ 0 < 0) := fun hx => absurd hx.2 (Nat.lt_irrefl 0)
    have hunfold : nmf v w0 h0 (r + 1) tol =
        ((nmfGo v tol 1 r
            ⟨(whSeq v w0 h0 1).1, (whSeq v w0 h0 1).2,
             errSeq v w0 h0 0, errSeq v w0 h0 0⟩).1,
         (nmfGo v tol 1 r
            ⟨(whSeq v w0 h0 1).1, (whSeq v w0 h0 1).2,
             errSeq v w0 h0 0, errSeq v w0 h0 0⟩).2 + 1) := by
      simp only [nmf, nmfGo, h20, hw20, heb0, eq_self_iff_true, if_true, Nat.zero_add,
        if_neg hcond]
    have key := nmfGo_spec v w0 h0 tol r 1
      ⟨(whSeq v w0 h0 1).1, (whSeq v w0 h0 1).2, errSeq v w0 h0 0, errSeq v w0 h0 0⟩
      (Nat.le_refl 1) rfl rfl rfl rfl
    obtain ⟨ha, hb, hcw, hch, hcei, hcpe, hnost, hstop⟩ := key
    rw [hunfold]
    refine ⟨by simpa using ha, fun _ => by simp, ?_, ?_, fun _ => hcei, ?_, ?_, ?_, ?_⟩
    · simpa [Nat.add_comm] using hcw
    · simpa [Nat.add_comm] using hch
    · intro _
      simpa [Nat.add_comm] using hcpe
    · intro j hj
      match j with
      | 0 => exact fun hx => absurd hx.2 (Nat.lt_irrefl 0)
      | j' + 1 =>
        have := hnost j' (by simpa using by omega)
        simpa [Nat.add_comm] using this
    · intro hlt
      have := hstop (by simpa using by omega)
      simpa [Nat.add_comm] using this
    · intro hmi
      have := hb (by omega)
      simp only []
      omega

/-! ## Nonnegativity of the multiplicative updates -/

lemma matmul_nonneg {a b c : Nat} (M : Matrix (Fin a) (Fin b) ℚ)
    (N : Matrix (Fin b) (Fin c) ℚ) (hM : ∀ i j, 0 ≤ M i j)
    (hN : ∀ i j, 0 ≤ N i j) : ∀ i j, 0 ≤ (M * N) i j := by
  intro i j
  rw [Matrix.mul_apply]
  exact Finset.sum_nonneg fun l _ => mul_nonneg (hM i l) (hN l j)

lemma lambda_add_eps_pos : (0 : ℚ) < lambda + eps := by
  norm_num [lambda, eps]

/-- The denominator of the `H` update is strictly positive whenever the
current factors are non-negative: it is a sum of products of
non-negative entries plus the positive constants. -/
lemma denomH_pos {d k n : Nat} (w : Matrix (Fin d) (Fin k) ℚ)
    (h : Matrix (Fin k) (Fin n) ℚ) (hw : ∀ i j, 0 ≤ w i j)
    (hh : ∀ i j, 0 ≤ h i j) (i : Fin k) (j : Fin n) :
    0 < (w.transpose * (w * h)) i j + lambda + eps := by
  have h1 := matmul_nonneg w.transpose (w * h) (fun i j => hw j i)
    (matmul_nonneg w h hw hh) i j
  have h2 := lambda_add_eps_pos
  linarith

/-- The denominator of the `W` update is strictly positive whenever the
current factors are non-negative. -/
lemma denomW_pos {d k n : Nat} (w : Matrix (Fin d) (Fin k) ℚ)
    (h : Matrix (Fin k) (Fin n) ℚ) (hw : ∀ i j, 0 ≤ w i j)
    (hh : ∀ i j, 0 ≤ h i j) (i : Fin d) (j : Fin k) :
    0 < (w * h * h.transpose) i j + lambda + eps := by
  have h1 := matmul_nonneg (w * h) h.transpose (matmul_nonneg w h hw hh)
    (fun i j => hh j i) i j
  have h2 := lambda_add_eps_pos
  linarith

lemma updateH_nonneg {d k n : Nat} (v : Matrix (Fin d) (Fin n) ℚ)
    (w : Matrix (Fin d) (Fin k) ℚ) (h : Matrix (Fin k) (Fin n) ℚ)
    (hv : ∀ i j, 0 ≤ v i j) (hw : ∀ i j, 0 ≤ w i j)
    (hh : ∀ i j, 0 ≤ h i j) : ∀ i j, 0 ≤ updateH v w h i j := by
  intro i j
  have hnum := matmul_nonneg w.transpose v (fun i j => hw j i) hv i j
  have hden := denomH_pos w h hw hh i j
  exact mul_nonneg (hh i j) (div_nonneg hnum (le_of_lt hden))

lemma updateW_nonneg {d k n : Nat} (v : Matrix (Fin d) (Fin n) ℚ)
    (w : Matrix (Fin d) (Fin k) ℚ) (h : Matrix (Fin k) (Fin n) ℚ)
    (hv : ∀ i j, 0 ≤ v i j) (hw : ∀ i j, 0 ≤ w i j)
    (hh : ∀ i j, 0 ≤ h i j) : ∀ i j, 0 ≤ updateW v w h i j := by
  intro i j
  have hnum := matmul_nonneg v h.transpose hv (fun i j => hh j i) i j
  have hden := denomW_pos w h hw hh i j
  exact mul_nonneg (hw i j) (div_nonneg hnum (le_of_lt hden))

/-- Every iterate of the update step keeps both factors entrywise
non-negative, with no clipping involved. -/
lemma whSeq_nonneg {d k n : Nat} (v : Matrix (Fin d) (Fin n) ℚ)
    (w0 : Matrix (Fin d) (Fin k) ℚ) (h0 : Matrix (Fin k) (Fin n) ℚ)
    (hv : ∀ i j, 0 ≤ v i j) (hw0 : ∀ i j, 0 ≤ w0 i j)
    (hh0 : ∀ i j, 0 ≤ h0 i j) (m : Nat) :
    (∀ i j, 0 ≤ (whSeq v w0 h0 m).1 i j) ∧ (∀ i j, 0 ≤ (whSeq v w0 h0 m).2 i j) := by
  induction m with
  | zero => exact ⟨hw0, hh0⟩
  | succ m ih =>
    rw [whSeq_succ]
    obtain ⟨ihw, ihh⟩ := ih
    refine ⟨?_, ?_⟩
    · exact updateW_nonneg v (whSeq v w0 h0 m).1 (updateH v (whSeq v w0 h0 m).1 (whSeq v w0 h0 m).2)
        hv ihw (updateH_nonneg v (whSeq v w0 h0 m).1 (whSeq v w0 h0 m).2 hv ihw ihh)
    · exact updateH_nonneg v (whSeq v w0 h0 m).1 (whSeq v w0 h0 m).2 hv ihw ihh

/-! ## Vocabulary lemmas -/

lemma assignIdx_length (l : List String) (s : Nat) :
    (assignIdx l s).length = l.length := by
  induction l generalizing s with
  | nil => rfl
  | cons t ts ih => simp [assignIdx, ih]

lemma assignIdx_map_fst (l : List String) (s : Nat) :
    (assignIdx l s).map Prod.fst = l := by
  induction l generalizing s with
  | nil => rfl
  | cons t ts ih => simp [assignIdx, ih]

lemma assignIdx_mem (l : List String) (s : Nat) (t : String) (i : Nat) :
    (t, i) ∈ assignIdx l s ↔ ∃ j, j < l.length ∧ l.get? j = some t ∧ i = s + j := by
  induction l generalizing s with
  | nil => simp [assignIdx]
  | cons u us ih =>
    simp only [assignIdx, List.mem_cons, ih, Prod.mk.injEq]
    constructor
    · rintro (⟨ht, hi⟩ | ⟨j, hj, hg, hi⟩)
      · exact ⟨0, by simp, by simp [ht.symm], by omega⟩
      · exact ⟨j + 1, by simpa using hj, by simpa using hg, by omega⟩
    · rintro ⟨j, hj, hg, hi⟩
      match j with
      | 0 =>
        left
        simp only [List.get?] at hg
        exact ⟨(Option.some.injEq _ _ ▸ hg).symm ▸ rfl, by omega⟩
      | j' + 1 =>
        right
        exact ⟨j', by simpa using hj, by simpa using hg, by omega⟩

lemma assignIdx_map_snd (l : List String) (s : Nat) :
    (assignIdx l s).map Prod.snd = List.range' s l.length := by
  induction l generalizing s with
  | nil => rfl
  | cons t ts ih => simp [assignIdx, List.range'_succ, ih]

lemma build_vocabulary_eq (documents : List (List String)) (minDf : Nat)
    (order : List String) :
    build_vocabulary documents minDf order
      = assignIdx (order.filter (dfOk documents minDf)) 0 := rfl

lemma build_vocabulary_map_fst (documents : List (List String)) (minDf : Nat)
    (order : List String) :
    (build_vocabulary documents minDf order).map Prod.fst
      = order.filter (dfOk documents minDf) := by
  rw [build_vocabulary_eq, assignIdx_map_fst]

lemma build_vocabulary_mem (documents : List (List String)) (minDf : Nat)
    (order : List String) (t : String) (i : Nat) :
    (t, i) ∈ build_vocabulary documents minDf order ↔
      i < (order.filter (dfOk documents minDf)).length ∧
      (order.filter (dfOk documents minDf)).get? i = some t := by
  rw [build_vocabulary_eq, assignIdx_mem]
  constructor
  · rintro ⟨j, hj, hg, hi⟩
    exact ⟨by omega, by simpa [hi] using hg⟩
  · rintro ⟨hi, hg⟩
    exact ⟨i, hi, hg, by omega⟩

lemma build_vocabulary_keys_nodup (documents : List (List String)) (minDf : Nat)
    (order : List String) (ho : order.Nodup) :
    ((build_vocabulary documents minDf order).map Prod.fst).Nodup := by
  rw [build_vocabulary_map_fst]
  exact ho.filter _

lemma build_vocabulary_snd_nodup (documents : List (List String)) (minDf : Nat)
    (order : List String) :
    ((build_vocabulary documents minDf order).map Prod.snd).Nodup := by
  rw [build_vocabulary_eq, assignIdx_map_snd]
  exact List.nodup_range' _ _

/-- With duplicate-free keys, the `HashMap::get` model answers `some i`
exactly for the pair recorded in the vocabulary. -/
lemma vocabLookup_eq_some (vocab : List (String × Nat)) (t : String) (i : Nat)
    (hkeys : (vocab.map Prod.fst).Nodup) :
    vocabLookup vocab t = some i ↔ (t, i) ∈ vocab := by
  constructor
  · intro hl
    simp only [vocabLookup, Option.map_eq_some'] at hl
    obtain ⟨p, hp, hpi⟩ := hl
    have hpt : p.1 = t := by
      have := List.find?_some hp
      simpa using this
    have hpmem := List.mem_of_find?_eq_some hp
    have : p = (t, i) := by
      cases p
      simp only [Prod.mk.injEq]
      exact ⟨hpt, hpi⟩
    rw [← this]; exact hpmem
  · intro hmem
    have hsome : (vocab.find? (fun p => p.1 == t)).isSome := by
      rw [List.find?_isSome]
      exact ⟨(t, i), hmem, by simp⟩
    obtain ⟨q, hq⟩ := Option.isSome_iff_exists.mp hsome
    have hqt : q.1 = t := by
      have := List.find?_some hq
      simpa using this
    have hqmem := List.mem_of_find?_eq_some hq
    have hqe : q = (t, i) :=
      List.inj_on_of_nodup_map hkeys hqmem hmem (by simpa using hqt)
    simp [vocabLookup, hq, hqe]

/-- With duplicate-free indices, the index-directed `find?` used by the
IDF array and by `feature_names` recovers exactly the recorded pair. -/
lemma find_by_index (vocab : List (String × Nat)) (t : String) (i : Nat)
    (hsnd : (vocab.map Prod.snd).Nodup) (hmem : (t, i) ∈ vocab) :
    vocab.find? (fun p => p.2 == i) = some (t, i) := by
  have hsome : (vocab.find? (fun p => p.2 == i)).isSome := by
    rw [List.find?_isSome]
    exact ⟨(t, i), hmem, by simp⟩
  obtain ⟨q, hq⟩ := Option.isSome_iff_exists.mp hsome
  have hqi : q.2 = i := by
    have := List.find?_some hq
    simpa using this
  have hqmem := List.mem_of_find?_eq_some hq
  have hqe : q = (t, i) :=
    List.inj_on_of_nodup_map hsnd hqmem hmem (by simpa using hqi)
  rw [hq, hqe]

lemma vocabContains_iff (vocab : List (String × Nat)) (t : String) :
    vocabContains vocab t = true ↔ t ∈ vocab.map Prod.fst := by
  simp only [vocabContains, vocabLookup, Option.isSome_map', List.find?_isSome,
    List.mem_map]
  constructor
  · rintro ⟨p, hp, he⟩
    exact ⟨p, hp, by simpa using he⟩
  · rintro ⟨p, hp, he⟩
    exact ⟨p, hp, by simpa using he⟩

lemma docFreq_le_length (documents : List (List String)) (t : String) :
    docFreq documents t ≤ documents.length :=
  List.length_filter_le _ _

/-! ## TF-IDF lemmas -/

/-- The smoothed IDF is at least 1: `df ≤ N`, so the logarithm is
non-negative. -/
lemma idf_ge_one (documents : List (List String)) (t : String) :
    1 ≤ idf documents t := by
  unfold idf
  have hdf : (docFreq documents t : ℝ) ≤ (documents.length : ℝ) :=
    Nat.cast_le.mpr (docFreq_le_length documents t)
  have hpos : (0 : ℝ) < (docFreq documents t : ℝ) + 1 := by positivity
  have h1 : (1 : ℝ) ≤ ((documents.length : ℝ) + 1) / ((docFreq documents t : ℝ) + 1) := by
    rw [le_div_iff₀ hpos]
    linarith
  have := Real.log_nonneg h1
  linarith

lemma tfEntry_of_no_valid (vocab : List (String × Nat)) (doc : List String)
    (i : Nat) (h : validTokenCount vocab doc = 0) : tfEntry vocab doc i = 0 :=
  if_pos h

lemma tfEntry_of_valid (vocab : List (String × Nat)) (doc : List String)
    (i : Nat) (h : validTokenCount vocab doc ≠ 0) :
    tfEntry vocab doc i
      = (tokensAtIndex vocab doc i : ℝ) / (validTokenCount vocab doc : ℝ) :=
  if_neg h

lemma tfEntry_nonneg (vocab : List (String × Nat)) (doc : List String) (i : Nat) :
    0 ≤ tfEntry vocab doc i := by
  unfold tfEntry
  split
  · exact le_refl 0
  · positivity

/-- Congruence of `valid_tokens` under vocabularies with the same key
set. -/
lemma validTokenCount_congr (vocab1 vocab2 : List (String × Nat))
    (doc : List String)
    (hmem : ∀ u, u ∈ vocab1.map Prod.fst ↔ u ∈ vocab2.map Prod.fst) :
    validTokenCount vocab1 doc = validTokenCount vocab2 doc := by
  unfold validTokenCount
  congr 1
  apply List.filter_congr
  intro u _
  rw [Bool.eq_iff_iff, vocabContains_iff, vocabContains_iff]
  exact hmem u

/-- With well-formed vocabularies, the occurrences counted at the index
of token `t` are exactly the occurrences of `t`. -/
lemma tokensAtIndex_eq_termCount (vocab : List (String × Nat)) (doc : List String)
    (t : String) (i : Nat) (hkeys : (vocab.map Prod.fst).Nodup)
    (hsnd : (vocab.map Prod.snd).Nodup)
    (hl : vocabLookup vocab t = some i) :
    tokensAtIndex vocab doc i = termCount doc t := by
  unfold tokensAtIndex termCount
  congr 1
  apply List.filter_congr
  intro u _
  rw [Bool.eq_iff_iff]
  simp only [beq_iff_eq]
  constructor
  · intro hu
    have humem := (vocabLookup_eq_some vocab u i hkeys).mp hu
    have htmem := (vocabLookup_eq_some vocab t i hkeys).mp hl
    have := List.inj_on_of_nodup_map hsnd humem htmem (by rfl)
    exact congrArg Prod.fst this
  · intro hu
    rw [hu]
    exact hl

/-- The IDF array reads the IDF of the token carrying the index. -/
lemma idfAt_eq_idf (documents : List (List String)) (vocab : List (String × Nat))
    (t : String) (i : Nat) (hsnd : (vocab.map Prod.snd).Nodup)
    (hmem : (t, i) ∈ vocab) : idfAt documents vocab i = idf documents t := by
  unfold idfAt
  rw [find_by_index vocab t i hsnd hmem]

/-- Columns of `V` depend on the vocabulary only through the token they
belong to: two well-formed vocabularies with the same key set give the
same entry at the respective indices of a common token. -/
lemma tfidf_column_congr (documents : List (List String))
    (vb1 vb2 : List (String × Nat)) (t : String) (i1 i2 d : Nat)
    (hk1 : (vb1.map Prod.fst).Nodup) (hs1 : (vb1.map Prod.snd).Nodup)
    (hk2 : (vb2.map Prod.fst).Nodup) (hs2 : (vb2.map Prod.snd).Nodup)
    (hmem : ∀ u, u ∈ vb1.map Prod.fst ↔ u ∈ vb2.map Prod.fst)
    (hl1 : vocabLookup vb1 t = some i1) (hl2 : vocabLookup vb2 t = some i2) :
    create_tfidf_matrix documents vb1 d i1 = create_tfidf_matrix documents vb2 d i2 := by
  unfold create_tfidf_matrix
  have hvc := validTokenCount_congr vb1 vb2 (documents.getD d []) hmem
  have htf : tfEntry vb1 (documents.getD d []) i1 = tfEntry vb2 (documents.getD d []) i2 := by
    unfold tfEntry
    rw [hvc, tokensAtIndex_eq_termCount vb1 _ t i1 hk1 hs1 hl1,
      tokensAtIndex_eq_termCount vb2 _ t i2 hk2 hs2 hl2]
  have hidf : idfAt documents vb1 i1 = idfAt documents vb2 i2 := by
    rw [idfAt_eq_idf documents vb1 t i1 hs1 ((vocabLookup_eq_some vb1 t i1 hk1).mp hl1),
      idfAt_eq_idf documents vb2 t i2 hs2 ((vocabLookup_eq_some vb2 t i2 hk2).mp hl2)]
  rw [htf, hidf]

/-! ## Sorting and reporter lemmas -/

lemma rcmp_eq_none_iff (a b : RFloat) :
    rcmp a b = none ↔ a.isNan = true ∨ b.isNan = true := by
  cases a <;> cases b <;> simp [rcmp, RFloat.isNan]

lemma qcmp_eq_lt_iff (a b : ℚ) : qcmp a b = Ordering.lt ↔ a < b := by
  unfold qcmp
  split_ifs with h1 h2 <;> simp [h1]

lemma le_of_qcmp_ne_lt (a b : ℚ) (h : qcmp a b ≠ Ordering.lt) : b ≤ a :=
  le_of_not_lt (fun hx => h ((qcmp_eq_lt_iff a b).mpr hx))

/-- Inserting a non-NaN weight into a list of non-NaN weights never
panics, and the result is a permutation of the element plus the list. -/
lemma insertD_some (x : String × RFloat) (l : List (String × RFloat))
    (hx : x.2.isNan = false) (hl : ∀ y ∈ l, y.2.isNan = false) :
    ∃ l', insertD x l = some l' ∧ l'.Perm (x :: l) := by
  induction l with
  | nil => exact ⟨[x], rfl, List.Perm.refl _⟩
  | cons y ys ih =>
    have hy : y.2.isNan = false := hl y (List.mem_cons_self y ys)
    have hys : ∀ z ∈ ys, z.2.isNan = false := fun z hz => hl z (List.mem_cons_of_mem y hz)
    have hcmp : pcmp x y ≠ none := by
      unfold pcmp
      rw [Ne, rcmp_eq_none_iff, hy, hx]
      simp
    obtain ⟨c, hc⟩ := Option.ne_none_iff_exists'.mp hcmp
    match c with
    | Ordering.lt =>
      exact ⟨x :: y :: ys, by simp [insertD, hc], List.Perm.refl _⟩
    | Ordering.eq =>
      obtain ⟨l'', h1, h2⟩ := ih hys
      refine ⟨y :: l'', by simp [insertD, hc, h1], ?_⟩
      exact (h2.cons y).trans (List.Perm.swap x y ys)
    | Ordering.gt =>
      obtain ⟨l'', h1, h2⟩ := ih hys
      refine ⟨y :: l'', by simp [insertD, hc, h1], ?_⟩
      exact (h2.cons y).trans (List.Perm.swap x y ys)

/-- Sorting a list of non-NaN weights never panics and permutes the
list. -/
lemma isortD_some (l : List (String × RFloat))
    (hl : ∀ y ∈ l, y.2.isNan = false) :
    ∃ l', isortD l = some l' ∧ l'.Perm l := by
  induction l with
  | nil => exact ⟨[], rfl, List.Perm.refl _⟩
  | cons x xs ih =>
    have hx : x.2.isNan = false := hl x (List.mem_cons_self x xs)
    have hxs : ∀ z ∈ xs, z.2.isNan = false := fun z hz => hl z (List.mem_cons_of_mem x hz)
    obtain ⟨l'', h1, h2⟩ := ih hxs
    have hl'' : ∀ z ∈ l'', z.2.isNan = false := fun z hz => hxs z (h2.mem_iff.mp hz)
    obtain ⟨l3, h3, h4⟩ := insertD_some x l'' hx hl''
    exact ⟨l3, by simp [isortD, h1, h3], h4.trans (h2.cons x)⟩

/-- The reporter never panics on NaN-free weights. -/
lemma printGo_isSome (vocab : List (String × Nat)) (i : Nat)
    (h : List (List RFloat)) (hn : ∀ row ∈ h, ∀ x ∈ row, x.isNan = false) :
    (printGo vocab i h).isSome = true := by
  induction h generalizing i with
  | nil => rfl
  | cons row rows ih =>
    have hrow : ∀ x ∈ row, x.isNan = false := hn row (List.mem_cons_self row rows)
    have hrest : ∀ r ∈ rows, ∀ x ∈ r, x.isNan = false :=
      fun r hr => hn r (List.mem_cons_of_mem row hr)
    have hpairs : ∀ y ∈ (featureNames vocab).zip row, y.2.isNan = false := by
      rintro ⟨a, b⟩ hy
      exact hrow b (List.of_mem_zip hy).2
    obtain ⟨l', h1, _⟩ := isortD_some _ hpairs
    have := ih (i + 1) hrest
    obtain ⟨res, hres⟩ := Option.isSome_iff_exists.mp this
    simp [printGo, h1, hres]

/-- On finite weights the panicking insertion agrees with the pure
insertion. -/
lemma insertD_lift (x : String × ℚ) (l : List (String × ℚ)) :
    insertD (liftP x) (l.map liftP) = some ((insertDP x l).map liftP) := by
  induction l with
  | nil => rfl
  | cons y ys ih =>
    have hcmp : pcmp (liftP x) (liftP y) = some (qcmp y.2 x.2) := rfl
    cases hq : qcmp y.2 x.2 with
    | lt =>
      have hc : pcmp (liftP x) (liftP y) = some Ordering.lt := by rw [hcmp, hq]
      simp [insertD, insertDP, hc, hq]
    | eq =>
      have hc : pcmp (liftP x) (liftP y) = some Ordering.eq := by rw [hcmp, hq]
      simp [insertD, insertDP, hc, hq, ih]
    | gt =>
      have hc : pcmp (liftP x) (liftP y) = some Ordering.gt := by rw [hcmp, hq]
      simp [insertD, insertDP, hc, hq, ih]

/-- On finite weights the panicking sort agrees with the pure sort. -/
lemma isortD_lift (l : List (String × ℚ)) :
    isortD (l.map liftP) = some ((isortDP l).map liftP) := by
  induction l with
  | nil => rfl
  | cons x xs ih => simp [isortD, isortDP, ih, insertD_lift]

lemma insertDP_perm (x : String × ℚ) (l : List (String × ℚ)) :
    (insertDP x l).Perm (x :: l) := by
  induction l with
  | nil => exact List.Perm.refl _
  | cons y ys ih =>
    unfold insertDP
    cases hq : qcmp y.2 x.2 with
    | lt => exact List.Perm.refl _
    | eq => exact (ih.cons y).trans (List.Perm.swap x y ys)
    | gt => exact (ih.cons y).trans (List.Perm.swap x y ys)

lemma isortDP_perm (l : List (String × ℚ)) : (isortDP l).Perm l := by
  induction l with
  | nil => exact List.Perm.refl _
  | cons x xs ih => exact (insertDP_perm x (isortDP xs)).trans (ih.cons x)

/-- The pure sort is descending in the weights. -/
lemma insertDP_sorted (x : String × ℚ) (l : List (String × ℚ))
    (h : l.Pairwise (fun a b => b.2 ≤ a.2)) :
    (insertDP x l).Pairwise (fun a b => b.2 ≤ a.2) := by
  induction l with
  | nil => simp [insertDP]
  | cons y ys ih =>
    obtain ⟨hy, hys⟩ := List.pairwise_cons.mp h
    unfold insertDP
    cases hq : qcmp y.2 x.2 with
    | lt =>
      have hyx : y.2 < x.2 := (qcmp_eq_lt_iff _ _).mp hq
      refine List.pairwise_cons.mpr ⟨?_, h⟩
      intro z hz
      rcases List.mem_cons.mp hz with rfl | hz'
      · exact le_of_lt hyx
      · exact le_trans (hy z hz') (le_of_lt hyx)
    | eq =>
      have hxy : x.2 ≤ y.2 := le_of_qcmp_ne_lt _ _ (by simp [hq])
      refine List.pairwise_cons.mpr ⟨?_, ih hys⟩
      intro z hz
      rcases List.mem_cons.mp ((insertDP_perm x ys).mem_iff.mp hz) with rfl | hz'
      · exact hxy
      · exact hy z hz'
    | gt =>
      have hxy : x.2 ≤ y.2 := le_of_qcmp_ne_lt _ _ (by simp [hq])
      refine List.pairwise_cons.mpr ⟨?_, ih hys⟩
      intro z hz
      rcases List.mem_cons.mp ((insertDP_perm x ys).mem_iff.mp hz) with rfl | hz'
      · exact hxy
      · exact hy z hz'

lemma isortDP_sorted (l : List (String × ℚ)) :
    (isortDP l).Pairwise (fun a b => b.2 ≤ a.2) := by
  induction l with
  | nil => simp [isortDP]
  | cons x xs ih => exact insertDP_sorted x (isortDP xs) ih

/-- Term selection commutes with the finite-value embedding. -/
lemma selectTermsRF_lift (l : List (String × ℚ)) :
    selectTermsRF (l.map liftP) = selectTerms l := by
  unfold selectTermsRF selectTerms
  rw [← List.map_take, List.filter_map, List.map_map]
  rfl

/-- On finite weights the reporter never panics and computes the pure
pipeline. -/
lemma printGo_lift (vocab : List (String × Nat)) (i : Nat)
    (qrows : List (List ℚ)) :
    printGo vocab i (qrows.map (fun r => r.map RFloat.finite))
      = some (topicsPure vocab i qrows) := by
  induction qrows generalizing i with
  | nil => rfl
  | cons row rest ih =>
    have hzip : (featureNames vocab).zip (row.map RFloat.finite)
        = ((featureNames vocab).zip row).map liftP := by
      rw [List.zip_map_right]
      rfl
    simp only [List.map_cons, printGo, hzip, isortD_lift, topicsPure, ih,
      selectTermsRF_lift]

/-! ## Zero-width runs and document loading -/

lemma frobErr_width_zero {d k : Nat} (v : Matrix (Fin d) (Fin 0) ℚ)
    (w : Matrix (Fin d) (Fin k) ℚ) (h : Matrix (Fin k) (Fin 0) ℚ) :
    frobErr v w h = 0 := by
  simp [frobErr]

lemma errSeq_width_zero {d k : Nat} (v : Matrix (Fin d) (Fin 0) ℚ)
    (w0 : Matrix (Fin d) (Fin k) ℚ) (h0 : Matrix (Fin k) (Fin 0) ℚ) (i : Nat) :
    errSeq v w0 h0 i = 0 :=
  frobErr_width_zero v _ _

/-- On a zero-width matrix every reconstruction error is 0, the relative
improvement is the IEEE quotient `0 / 0 = NaN`, and `NaN < tol` is
false, so the break condition never holds. -/
lemma stopCond_width_zero {d k : Nat} (v : Matrix (Fin d) (Fin 0) ℚ)
    (w0 : Matrix (Fin d) (Fin k) ℚ) (h0 : Matrix (Fin k) (Fin 0) ℚ)
    (tol : ℚ) (i : Nat) : ¬ stopCond v w0 h0 tol i := by
  intro hx
  obtain ⟨hlt, _⟩ := hx
  rw [errSeq_width_zero, errSeq_width_zero, errSeq_width_zero] at hlt
  simp [fdiv, rfltLt] at hlt

lemma load_documents_error_of_row
    (rows : List (Except String (Nat × String)))
    (p : String → Except String (List String)) (e : String)
    (hmem : Except.error e ∈ rows) :
    ∃ e2, load_documents rows p = Except.error e2 := by
  induction rows with
  | nil => simp at hmem
  | cons r rs ih =>
    rcases List.mem_cons.mp hmem with rfl | hmem'
    · exact ⟨e, rfl⟩
    · match r with
      | Except.error e3 => exact ⟨e3, rfl⟩
      | Except.ok rec =>
        match hp : p rec.2 with
        | Except.error e3 => exact ⟨e3, by simp [load_documents, hp]⟩
        | Except.ok toks =>
          obtain ⟨e2, h2⟩ := ih hmem'
          exact ⟨e2, by simp [load_documents, hp, h2]⟩

lemma load_documents_error_of_parse
    (rows : List (Except String (Nat × String)))
    (p : String → Except String (List String)) (rc : Nat × String) (e : String)
    (hmem : Except.ok rc ∈ rows) (hp : p rc.2 = Except.error e) :
    ∃ e2, load_documents rows p = Except.error e2 := by
  induction rows with
  | nil => simp at hmem
  | cons r rs ih =>
    rcases List.mem_cons.mp hmem with rfl | hmem'
    · exact ⟨e, by simp [load_documents, hp]⟩
    · match r with
      | Except.error e3 => exact ⟨e3, rfl⟩
      | Except.ok rec =>
        match hq : p rec.2 with
        | Except.error e3 => exact ⟨e3, by simp [load_documents, hq]⟩
        | Except.ok toks =>
          obtain ⟨e2, h2⟩ := ih hmem'
          exact ⟨e2, by simp [load_documents, hq, h2]⟩

/-! ## Claim theorems -/

/-- C1: every entry of `V` is clamped non-negative at encoding time, and
for every non-negative `V` and non-negative initial factors, every entry
of `W` and `H` stays non-negative at every iteration of the NMF loop —
purely because each multiplicative update multiplies a non-negative
factor by a ratio with non-negative numerator and strictly positive
denominator (a sum of products of non-negative terms plus `lambda` and
`eps`), with no clipping of `W` or `H` anywhere; in particular the
factors returned by `nmf` are non-negative for every `max_iter` and
`tol`. -/
theorem C1_nonnegativity_invariant :
    (∀ (documents : List (List String)) (vocab : List (String × Nat)) (d i : Nat),
      0 ≤ create_tfidf_matrix documents vocab d i) ∧
    (∀ (d k n : Nat) (v : Matrix (Fin d) (Fin n) ℚ)
      (w0 : Matrix (Fin d) (Fin k) ℚ) (h0 : Matrix (Fin k) (Fin n) ℚ),
      (∀ i j, 0 ≤ v i j) → (∀ i j, 0 ≤ w0 i j) → (∀ i j, 0 ≤ h0 i j) →
      (∀ m, (∀ i j, 0 ≤ (whSeq v w0 h0 m).1 i j) ∧
        (∀ i j, 0 ≤ (whSeq v w0 h0 m).2 i j)) ∧
      (∀ m i j, 0 < ((whSeq v w0 h0 m).1.transpose
        * ((whSeq v w0 h0 m).1 * (whSeq v w0 h0 m).2)) i j + lambda + eps) ∧
      (∀ m i j, 0 < ((whSeq v w0 h0 m).1 * (whSeq v w0 h0 m).2
        * (whSeq v w0 h0 m).2.transpose) i j + lambda + eps) ∧
      (∀ maxIter tol,
        (∀ i j, 0 ≤ (nmf v w0 h0 maxIter tol).1.w i j) ∧
        (∀ i j, 0 ≤ (nmf v w0 h0 maxIter tol).1.h i j))) := by
  constructor
  · intro documents vocab d i
    exact le_max_right _ 0
  · intro d k n v w0 h0 hv hw0 hh0
    have hseq := whSeq_nonneg v w0 h0 hv hw0 hh0
    refine ⟨hseq, ?_, ?_, ?_⟩
    · intro m i j
      exact denomH_pos _ _ (hseq m).1 (hseq m).2 i j
    · intro m i j
      exact denomW_pos _ _ (hseq m).1 (hseq m).2 i j
    · intro maxIter tol
      obtain ⟨_, _, hcw, hch, _⟩ := nmf_spec v w0 h0 maxIter tol
      constructor
      · intro i j
        rw [hcw]
        exact (hseq _).1 i j
      · intro i j
        rw [hch]
        exact (hseq _).2 i j

/-- C1 witness: at a concrete 1 by 1 instance the hypotheses hold and
the factors after two iterations are non-negative. -/
theorem C1_nonnegativity_invariant_witness :
    (∀ i j, 0 ≤ vOne i j) ∧
    (∀ i j, 0 ≤ (whSeq vOne wHalf hHalf 2).1 i j) ∧
    (∀ i j, 0 ≤ (nmf vOne wHalf hHalf 3 (1 / 10000)).1.h i j) := by
  refine ⟨by with_unfolding_all decide, ?_, ?_⟩
  · exact ((C1_nonnegativity_invariant.2 1 1 1 vOne wHalf hHalf
      (by with_unfolding_all decide) (by with_unfolding_all decide)
      (by with_unfolding_all decide)).1 2).1
  · exact ((C1_nonnegativity_invariant.2 1 1 1 vOne wHalf hHalf
      (by with_unfolding_all decide) (by with_unfolding_all decide)
      (by with_unfolding_all decide)).2.2.2 3 (1 / 10000)).2

/-- C2: in every iteration `H` is updated first from the pre-update `W`
and `W` then from the just-updated `H` (the trajectory is the iterate
sequence of `nmfStep`); the break condition `(prev_error - E) /
error_at_init < tol` is never taken on iteration 0 (with two or more
allowed iterations at least two run); the loop stops at the first
iteration whose break condition holds and performs at most `max_iter`
iterations; `prev_error` tracks the last computed error. -/
theorem C2_loop_structure {d k n : Nat} (v : Matrix (Fin d) (Fin n) ℚ)
    (w0 : Matrix (Fin d) (Fin k) ℚ) (h0 : Matrix (Fin k) (Fin n) ℚ)
    (maxIter : Nat) (tol : ℚ) :
    ((nmf v w0 h0 maxIter tol).1.w, (nmf v w0 h0 maxIter tol).1.h)
      = whSeq v w0 h0 (nmf v w0 h0 maxIter tol).2 ∧
    (nmf v w0 h0 maxIter tol).2 ≤ maxIter ∧
    (2 ≤ maxIter → 2 ≤ (nmf v w0 h0 maxIter tol).2) ∧
    (∀ j, j + 1 < (nmf v w0 h0 maxIter tol).2 → ¬ stopCond v w0 h0 tol j) ∧
    ((nmf v w0 h0 maxIter tol).2 < maxIter →
      stopCond v w0 h0 tol ((nmf v w0 h0 maxIter tol).2 - 1)) ∧
    (1 ≤ (nmf v w0 h0 maxIter tol).2 →
      (nmf v w0 h0 maxIter tol).1.prevError
        = errSeq v w0 h0 ((nmf v w0 h0 maxIter tol).2 - 1)) := by
  obtain ⟨hle, _, hcw, hch, _, hpe, hnost, hstop, htwo⟩ := nmf_spec v w0 h0 maxIter tol
  exact ⟨Prod.ext hcw hch, hle, htwo, hnost, hstop, hpe⟩

/-- C2 witness: at a concrete 1 by 1 instance with three allowed
iterations, at least two iterations run. -/
theorem C2_loop_structure_witness :
    2 ≤ (nmf vOne wHalf hHalf 3 (1 / 10000)).2 :=
  (C2_loop_structure vOne wHalf hHalf 3 (1 / 10000)).2.2.1 (by decide)

/-- C3 counterexample: on the zero-width document-term matrix (one
document, empty vocabulary) the first recorded error is 0, yet the loop
is not treated as converged: it runs all five allowed iterations,
because the relative improvement is the IEEE quotient `0 / 0 = NaN` and
`NaN < tol` is false — there is no explicit `error_at_init == 0`
handling in the code. -/
theorem C3_zero_init_error_counterexample :
    (nmf vWide wHalf hWide 5 (1 / 10000)).1.errorAtInit = 0 ∧
    (nmf vWide wHalf hWide 5 (1 / 10000)).2 = 5 := by
  constructor
  · with_unfolding_all decide
  · with_unfolding_all decide

/-- C3 (amended): the optimizer has no explicit handling for
`error_at_init == 0`; the division is performed regardless, and when
every reconstruction error is zero (as for a zero-width `V`) the
quotient is NaN, the comparison with `tol` is false, and the loop runs
all `max_iter` iterations instead of stopping as converged. -/
theorem C3_zero_init_error_amended {d k : Nat} (v : Matrix (Fin d) (Fin 0) ℚ)
    (w0 : Matrix (Fin d) (Fin k) ℚ) (h0 : Matrix (Fin k) (Fin 0) ℚ)
    (maxIter : Nat) (tol : ℚ) :
    (nmf v w0 h0 maxIter tol).1.errorAtInit = 0 ∧
    (nmf v w0 h0 maxIter tol).2 = maxIter := by
  obtain ⟨hle, hone, _, _, hei, _, _, hstop, _⟩ := nmf_spec v w0 h0 maxIter tol
  have hcnt : (nmf v w0 h0 maxIter tol).2 = maxIter := by
    by_contra hne
    have hlt : (nmf v w0 h0 maxIter tol).2 < maxIter := lt_of_le_of_ne hle hne
    exact stopCond_width_zero v w0 h0 tol _ (hstop hlt)
  refine ⟨?_, hcnt⟩
  cases maxIter with
  | zero => rfl
  | succ m =>
    rw [hei (hone (by omega))]
    exact errSeq_width_zero v w0 h0 0

/-- C9 counterexample: with `k = 0` the optimizer does not return any
typed failure — it runs normally (stopping via the convergence check on
the second iteration) and returns the well-formed empty factorization,
whose product is the zero matrix. -/
theorem C9_k_zero_counterexample :
    (nmf vOne wK0 hK0 3 (1 / 10000)).2 = 2 ∧
    (nmf vOne wK0 hK0 3 (1 / 10000)).1.errorAtInit = 1 ∧
    ((nmf vOne wK0 hK0 3 (1 / 10000)).1.w * (nmf vOne wK0 hK0 3 (1 / 10000)).1.h) 0 0
      = 0 := by
  refine ⟨by with_unfolding_all decide, by with_unfolding_all decide,
    by with_unfolding_all decide⟩

lemma build_vocabulary_length (documents : List (List String)) (minDf : Nat)
    (order : List String) :
    (build_vocabulary documents minDf order).length
      = (order.filter (dfOk documents minDf)).length := by
  rw [build_vocabulary_eq, assignIdx_length]

/-- C4: for every corpus and `min_df`, the vocabulary is a bijection
from its tokens onto `[0, vocab_size)` (indices are in range, no index
or token repeats, every index is hit); a token is included exactly when
its document frequency — the number of distinct documents containing it
— is at least `min_df`; an empty corpus, or `min_df` larger than the
corpus size, yields an empty vocabulary.  `order` is the enumeration
order of the underlying document-count map: duplicate-free and carrying
exactly the corpus tokens. -/
theorem C4_vocabulary_bijection (documents : List (List String)) (minDf : Nat)
    (order : List String) (ho : order.Nodup)
    (hcov : ∀ doc ∈ documents, ∀ t ∈ doc, t ∈ order)
    (hsrc : ∀ t ∈ order, ∃ doc ∈ documents, t ∈ doc) :
    (∀ p ∈ build_vocabulary documents minDf order,
      p.2 < (build_vocabulary documents minDf order).length) ∧
    (∀ p ∈ build_vocabulary documents minDf order,
      ∀ q ∈ build_vocabulary documents minDf order, p.2 = q.2 → p = q) ∧
    (∀ p ∈ build_vocabulary documents minDf order,
      ∀ q ∈ build_vocabulary documents minDf order, p.1 = q.1 → p = q) ∧
    (∀ i, i < (build_vocabulary documents minDf order).length →
      ∃ t, (t, i) ∈ build_vocabulary documents minDf order) ∧
    (∀ p ∈ build_vocabulary documents minDf order, minDf ≤ docFreq documents p.1) ∧
    (∀ t, (∃ doc ∈ documents, t ∈ doc) →
      t ∉ (build_vocabulary documents minDf order).map Prod.fst →
      docFreq documents t < minDf) ∧
    (documents = [] → build_vocabulary documents minDf order = []) ∧
    (documents.length < minDf → build_vocabulary documents minDf order = []) := by
  have hFnd : (order.filter (dfOk documents minDf)).Nodup := ho.filter _
  refine ⟨?_, ?_, ?_, ?_, ?_, ?_, ?_, ?_⟩
  · rintro ⟨t, i⟩ hp
    rw [build_vocabulary_length]
    exact ((build_vocabulary_mem documents minDf order t i).mp hp).1
  · rintro ⟨t, i⟩ hp ⟨u, j⟩ hq he
    obtain ⟨hi, hgi⟩ := (build_vocabulary_mem documents minDf order t i).mp hp
    obtain ⟨hj, hgj⟩ := (build_vocabulary_mem documents minDf order u j).mp hq
    simp only at he
    subst he
    rw [hgi] at hgj
    injection hgj with htu
    simp [htu]
  · rintro ⟨t, i⟩ hp ⟨u, j⟩ hq he
    obtain ⟨hi, hgi⟩ := (build_vocabulary_mem documents minDf order t i).mp hp
    obtain ⟨hj, hgj⟩ := (build_vocabulary_mem documents minDf order u j).mp hq
    simp only at he
    subst he
    have hij : i = j := List.get?_inj hi hFnd (by rw [hgi, hgj])
    simp [hij]
  · intro i hi
    rw [build_vocabulary_length] at hi
    exact ⟨(order.filter (dfOk documents minDf)).get ⟨i, hi⟩,
      (build_vocabulary_mem documents minDf order _ i).mpr
        ⟨hi, List.get?_eq_get hi⟩⟩
  · rintro ⟨t, i⟩ hp
    obtain ⟨hi, hgi⟩ := (build_vocabulary_mem documents minDf order t i).mp hp
    have hmem := List.get?_mem hgi
    have := (List.mem_filter.mp hmem).2
    exact of_decide_eq_true this
  · rintro t ⟨doc, hdoc, htd⟩ hnot
    by_contra hge
    push_neg at hge
    apply hnot
    rw [build_vocabulary_map_fst]
    exact List.mem_filter.mpr ⟨hcov doc hdoc t htd, decide_eq_true hge⟩
  · intro hdocs
    subst hdocs
    have horder : order = [] := by
      rw [List.eq_nil_iff_forall_not_mem]
      intro t ht
      obtain ⟨doc, hdoc, _⟩ := hsrc t ht
      simp at hdoc
    subst horder
    rfl
  · intro hlen
    have hF : order.filter (dfOk documents minDf) = [] := by
      rw [List.filter_eq_nil_iff]
      intro t _
      have := docFreq_le_length documents t
      simp only [dfOk, decide_eq_true_eq]
      omega
    rw [build_vocabulary_eq, hF]
    rfl

/-- C4 witness: a concrete two-document corpus with a valid enumeration
order; every vocabulary pair records a document frequency of at least
`min_df = 1`. -/
theorem C4_vocabulary_bijection_witness :
    (["a", "b"] : List String).Nodup ∧
    (∀ p ∈ build_vocabulary [["a", "b"], ["b"]] 1 ["a", "b"],
      1 ≤ docFreq [["a", "b"], ["b"]] p.1) := by
  refine ⟨by decide, ?_⟩
  exact (C4_vocabulary_bijection [["a", "b"], ["b"]] 1 ["a", "b"]
    (by decide) (by decide) (by decide)).2.2.2.2.1

/-- C5: the IDF weight of every token is `1 + ln((N + 1) / (df + 1))`
(this is the definition of `idf`), it is strictly positive, so an IDF
factor never turns a non-negative TF value negative; on the corpus
`[["cat","dog"],["dog","dog","fish"],["cat","fish"]]` all three tokens
get `idf = 1 + ln(4/3)`, and with `min_df = 1` the vocabulary has three
entries. -/
theorem C5_idf_positive :
    (∀ (documents : List (List String)) (t : String), 0 < idf documents t) ∧
    (∀ (documents : List (List String)) (t : String) (x : ℝ),
      0 ≤ x → 0 ≤ x * idf documents t) ∧
    idf [["cat", "dog"], ["dog", "dog", "fish"], ["cat", "fish"]] "cat"
      = 1 + Real.log (4 / 3) ∧
    idf [["cat", "dog"], ["dog", "dog", "fish"], ["cat", "fish"]] "dog"
      = 1 + Real.log (4 / 3) ∧
    idf [["cat", "dog"], ["dog", "dog", "fish"], ["cat", "fish"]] "fish"
      = 1 + Real.log (4 / 3) ∧
    (build_vocabulary [["cat", "dog"], ["dog", "dog", "fish"], ["cat", "fish"]] 1
      ["cat", "dog", "fish"]).length = 3 := by
  have hpos : ∀ (documents : List (List String)) (t : String), 0 < idf documents t :=
    fun documents t => lt_of_lt_of_le zero_lt_one (idf_ge_one documents t)
  have hsc : ∀ t : String,
      docFreq [["cat", "dog"], ["dog", "dog", "fish"], ["cat", "fish"]] t = 2 →
      idf [["cat", "dog"], ["dog", "dog", "fish"], ["cat", "fish"]] t
        = 1 + Real.log (4 / 3) := by
    intro t hdf
    rw [idf, hdf]
    norm_num
  refine ⟨hpos, ?_, hsc "cat" (by decide), hsc "dog" (by decide),
    hsc "fish" (by decide), by decide⟩
  intro documents t x hx
  exact mul_nonneg hx (le_of_lt (hpos documents t))

/-- C5 witness: the TF-times-IDF product conjunct at a concrete
non-negative value and corpus. -/
theorem C5_idf_positive_witness :
    (0 : ℝ) ≤ 2 ∧ (0 : ℝ) ≤ 2 * idf [["cat"]] "cat" :=
  ⟨by norm_num, C5_idf_positive.2.1 [["cat"]] "cat" 2 (by norm_num)⟩

/-- C6: the per-document TF normalizer is the count of
vocabulary-matched token occurrences; a document with no
vocabulary-matched token keeps its all-zero row (the division branch is
never reached, the zero branch returns directly); on the document
`["a","x"]` with vocabulary `{a}` the TF value is `1`, not the
total-length normalization `1/2`. -/
theorem C6_tf_normalizer :
    (∀ (documents : List (List String)) (vocab : List (String × Nat)) (d : Nat),
      validTokenCount vocab (documents.getD d []) = 0 →
      ∀ i, create_tfidf_matrix documents vocab d i = 0) ∧
    (∀ (documents : List (List String)) (vocab : List (String × Nat)) (d i : Nat),
      validTokenCount vocab (documents.getD d []) ≠ 0 →
      tfEntry vocab (documents.getD d []) i
        = (tokensAtIndex vocab (documents.getD d []) i : ℝ)
          / (validTokenCount vocab (documents.getD d []) : ℝ)) ∧
    tfEntry [("a", 0)] ["a", "x"] 0 = 1 ∧
    (termCount ["a", "x"] "a" : ℝ) / ((["a", "x"] : List String).length : ℝ)
      = 1 / 2 := by
  refine ⟨?_, ?_, ?_, ?_⟩
  · intro documents vocab d h i
    unfold create_tfidf_matrix
    rw [tfEntry_of_no_valid vocab _ i h]
    simp
  · intro documents vocab d i h
    exact tfEntry_of_valid vocab _ i h
  · rw [tfEntry_of_valid _ _ _ (by decide)]
    have h1 : tokensAtIndex [("a", 0)] ["a", "x"] 0 = 1 := by decide
    have h2 : validTokenCount [("a", 0)] ["a", "x"] = 1 := by decide
    rw [h1, h2]
    norm_num
  · have h3 : termCount ["a", "x"] "a" = 1 := by decide
    have h4 : (["a", "x"] : List String).length = 2 := rfl
    rw [h3, h4]
    norm_num

/-- C6 witness: a document none of whose tokens is in the vocabulary
yields a zero `V` entry. -/
theorem C6_tf_normalizer_witness :
    validTokenCount [("a", 0)] ([["x", "y"]].getD 0 []) = 0 ∧
    create_tfidf_matrix [["x", "y"]] [("a", 0)] 0 0 = 0 :=
  ⟨by decide, C6_tf_normalizer.1 [["x", "y"]] [("a", 0)] 0 (by decide) 0⟩

/-- C7: for every topic row, the reporter sorts the (term, weight) pairs
descending by weight (`isortDP` is a descending-sorted permutation),
takes the top ten, drops the pairs whose weight does not exceed `0.001`,
and renders `"Topic i: "` followed by the space-joined survivors with
trailing whitespace trimmed (`topicsPure` is that composition); on the
weights `[0.5, 0.3, 0.0005, 0.0]` only the first two terms appear in
the label. -/
theorem C7_topic_extraction :
    (∀ (vocab : List (String × Nat)) (qrows : List (List ℚ)),
      print_topics (qrows.map (fun r => r.map RFloat.finite)) vocab
        = some (topicsPure vocab 0 qrows)) ∧
    (∀ l : List (String × ℚ),
      (isortDP l).Pairwise (fun a b => b.2 ≤ a.2) ∧ (isortDP l).Perm l) ∧
    print_topics
      [[RFloat.finite (1 / 2), RFloat.finite (3 / 10),
        RFloat.finite (1 / 2000), RFloat.finite 0]]
      [("t1", 0), ("t2", 1), ("t3", 2), ("t4", 3)]
      = some ["Topic 0: t1 t2"] := by
  refine ⟨fun vocab qrows => printGo_lift vocab 0 qrows,
    fun l => ⟨isortDP_sorted l, isortDP_perm l⟩, ?_⟩
  with_unfolding_all decide

/-- C8 counterexample: two runs on the same corpus with the same
`min_df` but different (equally valid, duplicate-free, same-membership)
enumeration orders of the document-count map assign different indices to
the token `"a"` and produce different matrices `V` — the token-to-index
assignment is not a function of the document-frequency counts alone, and
`V` is not bit-identical across runs. -/
theorem C8_determinism_counterexample :
    (["a", "b"] : List String).Nodup ∧ (["b", "a"] : List String).Nodup ∧
    (∀ t : String, t ∈ (["a", "b"] : List String) ↔ t ∈ (["b", "a"] : List String)) ∧
    vocabLookup (build_vocabulary [["a"], ["b"]] 1 ["a", "b"]) "a" = some 0 ∧
    vocabLookup (build_vocabulary [["a"], ["b"]] 1 ["b", "a"]) "a" = some 1 ∧
    create_tfidf_matrix [["a"], ["b"]] (build_vocabulary [["a"], ["b"]] 1 ["a", "b"]) 0 0
      ≠ create_tfidf_matrix [["a"], ["b"]] (build_vocabulary [["a"], ["b"]] 1 ["b", "a"]) 0 0 := by
  have hv1 : build_vocabulary [["a"], ["b"]] 1 ["a", "b"] = [("a", 0), ("b", 1)] := by
    decide
  have hv2 : build_vocabulary [["a"], ["b"]] 1 ["b", "a"] = [("b", 0), ("a", 1)] := by
    decide
  refine ⟨by decide, by decide, by intro t; simp [or_comm], by decide, by decide, ?_⟩
  rw [hv1, hv2]
  have h2 : create_tfidf_matrix [["a"], ["b"]] [("b", 0), ("a", 1)] 0 0 = 0 := by
    unfold create_tfidf_matrix
    rw [tfEntry_of_valid _ _ _ (by decide)]
    have e0 : tokensAtIndex [("b", 0), ("a", 1)] ([["a"], ["b"]].getD 0 []) 0 = 0 := by
      decide
    rw [e0]
    simp
  have h1 : 0 < create_tfidf_matrix [["a"], ["b"]] [("a", 0), ("b", 1)] 0 0 := by
    unfold create_tfidf_matrix
    have htf : tfEntry [("a", 0), ("b", 1)] ([["a"], ["b"]].getD 0 []) 0 = 1 := by
      rw [tfEntry_of_valid _ _ _ (by decide)]
      have e1 : tokensAtIndex [("a", 0), ("b", 1)] ([["a"], ["b"]].getD 0 []) 0 = 1 := by
        decide
      have e2 : validTokenCount [("a", 0), ("b", 1)] ([["a"], ["b"]].getD 0 []) = 1 := by
        decide
      rw [e1, e2]
      norm_num
    have hidf : idfAt [["a"], ["b"]] [("a", 0), ("b", 1)] 0 = idf [["a"], ["b"]] "a" :=
      idfAt_eq_idf _ _ "a" 0 (by decide) (by decide)
    rw [htf, hidf, one_mul]
    have hp : 0 < idf [["a"], ["b"]] "a" :=
      lt_of_lt_of_le zero_lt_one (idf_ge_one [["a"], ["b"]] "a")
    exact lt_max_of_lt_left hp
  intro he
  rw [he, h2] at h1
  exact lt_irrefl 0 h1

/-- C8 (amended): for a fixed enumeration order the two stages are pure
functions, so determinism holds run to run only when the hash map
enumerates its entries in the same order; across two valid orders the
included token set is identical and `V` agrees up to the induced index
relabeling — the columns are permuted, not bit-identical. -/
theorem C8_determinism_amended (documents : List (List String)) (minDf : Nat)
    (o1 o2 : List String) (h1 : o1.Nodup) (h2 : o2.Nodup)
    (h12 : ∀ t ∈ o1, t ∈ o2) (h21 : ∀ t ∈ o2, t ∈ o1) :
    (∀ t, t ∈ (build_vocabulary documents minDf o1).map Prod.fst ↔
          t ∈ (build_vocabulary documents minDf o2).map Prod.fst) ∧
    (∀ t i1 i2 d,
      vocabLookup (build_vocabulary documents minDf o1) t = some i1 →
      vocabLookup (build_vocabulary documents minDf o2) t = some i2 →
      create_tfidf_matrix documents (build_vocabulary documents minDf o1) d i1
        = create_tfidf_matrix documents (build_vocabulary documents minDf o2) d i2) := by
  have hmem : ∀ t, t ∈ (build_vocabulary documents minDf o1).map Prod.fst ↔
      t ∈ (build_vocabulary documents minDf o2).map Prod.fst := by
    intro t
    rw [build_vocabulary_map_fst, build_vocabulary_map_fst, List.mem_filter,
      List.mem_filter]
    constructor
    · rintro ⟨ht, hdf⟩
      exact ⟨h12 t ht, hdf⟩
    · rintro ⟨ht, hdf⟩
      exact ⟨h21 t ht, hdf⟩
  refine ⟨hmem, ?_⟩
  intro t i1 i2 d hl1 hl2
  exact tfidf_column_congr documents _ _ t i1 i2 d
    (build_vocabulary_keys_nodup _ _ _ h1) (build_vocabulary_snd_nodup _ _ _)
    (build_vocabulary_keys_nodup _ _ _ h2) (build_vocabulary_snd_nodup _ _ _)
    hmem hl1 hl2

/-- C8 witness: the two orders of the counterexample corpus give equal
`V` entries at the corresponding (permuted) indices of the token
`"a"`. -/
theorem C8_determinism_amended_witness :
    vocabLookup (build_vocabulary [["a"], ["b"]] 1 ["a", "b"]) "a" = some 0 ∧
    create_tfidf_matrix [["a"], ["b"]] (build_vocabulary [["a"], ["b"]] 1 ["a", "b"]) 0 0
      = create_tfidf_matrix [["a"], ["b"]] (build_vocabulary [["a"], ["b"]] 1 ["b", "a"]) 0 1 :=
  ⟨by decide, (C8_determinism_amended [["a"], ["b"]] 1 ["a", "b"] ["b", "a"]
    (by decide) (by decide) (by decide) (by decide)).2 "a" 0 1 0 (by decide) (by decide)⟩

/-- C9 (amended): malformed input is a typed failure — a row whose
record fails to deserialize, or whose `tokens` field fails to parse,
makes `load_documents` return an error rather than coerce; but the
degenerate configuration `k = 0` is not rejected: `nmf` returns a
well-formed (empty) factorization, as the counterexample shows. -/
theorem C9_failure_propagation_amended :
    (∀ (rows : List (Except String (Nat × String)))
      (p : String → Except String (List String)) (e : String),
      Except.error e ∈ rows → ∃ e2, load_documents rows p = Except.error e2) ∧
    (∀ (rows : List (Except String (Nat × String)))
      (p : String → Except String (List String)) (rc : Nat × String) (e : String),
      Except.ok rc ∈ rows → p rc.2 = Except.error e →
      ∃ e2, load_documents rows p = Except.error e2) :=
  ⟨fun rows p e hmem => load_documents_error_of_row rows p e hmem,
   fun rows p rc e hmem hp => load_documents_error_of_parse rows p rc e hmem hp⟩

/-- C9 witness: a single malformed row makes the loader fail. -/
theorem C9_failure_propagation_amended_witness :
    (Except.error "bad" ∈ ([Except.error "bad"] : List (Except String (Nat × String)))) ∧
    ∃ e2, load_documents [Except.error "bad"] (fun _ => Except.ok []) = Except.error e2 :=
  ⟨by simp, C9_failure_propagation_amended.1 [Except.error "bad"]
    (fun _ => Except.ok []) "bad" (by simp)⟩

/-- C10: topic extraction is total exactly on NaN-free `H`: if no entry
of `H` is NaN the reporter returns labels without panicking, while a row
holding a NaN next to another entry forces the comparator's `unwrap`
to panic (modelled as `none`). -/
theorem C10_sort_totality :
    (∀ (h : List (List RFloat)) (vocab : List (String × Nat)),
      (∀ row ∈ h, ∀ x ∈ row, x.isNan = false) →
      (print_topics h vocab).isSome = true) ∧
    print_topics [[RFloat.nan, RFloat.finite 1]] [("a", 0), ("b", 1)] = none := by
  refine ⟨?_, ?_⟩
  · intro h vocab hn
    exact printGo_isSome vocab 0 h hn
  · rfl

/-- C10 witness: a NaN-free concrete `H` satisfies the hypothesis and
the reporter returns labels. -/
theorem C10_sort_totality_witness :
    (∀ row ∈ ([[RFloat.finite 1, RFloat.finite 2]] : List (List RFloat)),
      ∀ x ∈ row, x.isNan = false) ∧
    (print_topics [[RFloat.finite 1, RFloat.finite 2]] [("a", 0), ("b", 1)]).isSome
      = true := by
  refine ⟨?_, ?_⟩
  · with_unfolding_all decide
  · exact C10_sort_totality.1 [[RFloat.finite 1, RFloat.finite 2]] [("a", 0), ("b", 1)]
      (by with_unfolding_all decide)

end NmfPipeline
